import Mathlib

/-!
Verification of the NGA client core (`src/nga_client.py`) against its
natural-language specification.

The development shallowly embeds the Python code:

* Python strings are modelled as `String` / `List Char` (all character-level
  operations are performed on `List Char` so that every definition evaluates
  by `decide`/`rfl`);
* Python `None`-able fields become `Option`;
* Python exceptions become `Except Unit`;
* the wall-clock budget is modelled by an explicit elapsed-milliseconds
  oracle passed to the loops that consult the monotonic clock;
* the nondeterministic completion order of concurrently gathered tasks is
  modelled by quantifying over permutations of the task-result list.

Definitions are translated from the source; the few definitions that follow
the specification's wording instead (for refinement comparisons) say so in
their doc comments.
-/

namespace NGA

/-! ## Python string primitives

Python `str.strip()`, `str.lower()` and the substring test `a in b`,
modelled on `List Char`.  `Char.toLower` agrees with Python `str.lower`
on ASCII and on unicased scripts (such as CJK), which covers every string
these theorems evaluate. -/

/-- Model of Python `str.lower()`. -/
def pyLower (s : List Char) : List Char := s.map Char.toLower

/-- Model of Python `str.strip()` with no argument (strip ASCII whitespace
from both ends). -/
def pyStrip (s : List Char) : List Char :=
  ((s.dropWhile Char.isWhitespace).reverse.dropWhile Char.isWhitespace).reverse

/-- Model of the Python substring test `a in b` (contiguous substring). -/
def pyIn (a : List Char) : List Char → Bool
  | [] => decide (a = [])
  | y :: ys => a.isPrefixOf (y :: ys) || pyIn a ys

/-- The empty string is a Python-substring of every string (`"" in b` is
always `True`). -/
theorem pyIn_nil (b : List Char) : pyIn [] b = true := by
  induction b with
  | nil => rfl
  | cons y ys ih => simp [pyIn, List.isPrefixOf, ih]

/-! ## The Post record

`Post` mirrors the per-comment record produced by `_extract_posts` /
`_extract_posts_fallback` in `src/nga_client.py`: `pid` and `floor` may be
absent (`null` in the page), `quote` is an optional quoted floor. -/

structure Post where
  pid : Option String
  floor : Option Int
  time : String
  content : String
  quote : Option Int
  likes : Int
deriving DecidableEq, Repr

/-- Python truthiness of the `pid` field: `None` and `""` are falsy
(`if pid and pid in pid_seen`), every other string is a usable key. -/
def pidKey : Option String → Option String
  | none => none
  | some s => if s = "" then none else some s

/-! ## PostMerger (`crawl_post`, the dedup-and-sort epilogue)

Embedding of `src/nga_client.py` lines 637-653. -/

/-- The dedup loop of `crawl_post`: walk the accumulated posts keeping a
`pid_seen` set; a post with a truthy `pid` already seen is dropped, every
other post is kept. -/
def dedupByPid : List Post → List String → List Post
  | [], _ => []
  | p :: ps, seen =>
    match pidKey p.pid with
    | some s => if s ∈ seen then dedupByPid ps seen else p :: dedupByPid ps (s :: seen)
    | none => p :: dedupByPid ps seen

/-- Sort key used by `crawl_post`:
`x.get("floor") if isinstance(x.get("floor"), int) else 10 ** 9`. -/
def floorKey (p : Post) : Int :=
  match p.floor with
  | some i => i
  | none => 10 ^ 9

/-- Stable sort by `floorKey`, modelling Python `sorted(dedup, key=...)`.
Python sort is stable, and `List.insertionSort` with a non-strict key
comparison is stable too (each element is inserted before the first
strictly-later element with a key not below its own), so the two compute
the same list. -/
def sortByFloor (l : List Post) : List Post :=
  l.insertionSort fun p q => floorKey p ≤ floorKey q

/-- The merge step of `crawl_post`: dedup by `pid`, then sort by floor. -/
def mergePosts (l : List Post) : List Post := sortByFloor (dedupByPid l [])

/-- The final cap of `crawl_post`:
`if max_comments and max_comments > 0: posts = posts[:max_comments]`. -/
def applyCap (maxComments : Int) (l : List Post) : List Post :=
  if maxComments ≠ 0 ∧ maxComments > 0 then l.take maxComments.toNat else l

/-! Properties of `dedupByPid`. -/

/-- Every post surviving the dedup with a truthy pid has that pid outside the
`seen` set it started from. -/
theorem dedupByPid_mem_seen {l : List Post} {seen : List String} {q : Post}
    (hq : q ∈ dedupByPid l seen) {s : String} (hs : pidKey q.pid = some s) :
    s ∉ seen := by
  induction l generalizing seen with
  | nil => simp [dedupByPid] at hq
  | cons p ps ih =>
    simp only [dedupByPid] at hq
    cases hp : pidKey p.pid with
    | some t =>
      rw [hp] at hq
      by_cases ht : t ∈ seen
      · simp only [ht, if_pos] at hq
        exact ih hq
      · simp only [ht, if_neg, not_false_iff, List.mem_cons] at hq
        rcases hq with rfl | hq
        · rw [hp] at hs; cases hs; exact ht
        · intro hmem
          exact ih hq (List.mem_cons_of_mem _ hmem)
    | none =>
      rw [hp] at hq
      rcases List.mem_cons.mp hq with rfl | hq
      · rw [hp] at hs; cases hs
      · exact ih hq

/-- The dedup output keeps, for each truthy pid value `s`, exactly the posts
the input filter keeps after the first one is removed: the filter of the
output equals the first occurrence (`take 1`) of the filter of the input.
For `s ∈ seen` nothing with pid `s` survives. -/
theorem dedupByPid_filter (l : List Post) (seen : List String) (s : String) :
    (dedupByPid l seen).filter (fun p => decide (pidKey p.pid = some s)) =
      if s ∈ seen then []
      else (l.filter (fun p => decide (pidKey p.pid = some s))).take 1 := by
  induction l generalizing seen with
  | nil => simp [dedupByPid]
  | cons p ps ih =>
    by_cases hps : pidKey p.pid = some s
    · simp only [dedupByPid, hps]
      by_cases hst : s ∈ seen
      · rw [if_pos hst, ih, if_pos hst, if_pos hst]
      · rw [if_neg hst, if_neg hst]
        rw [List.filter_cons, List.filter_cons]
        simp only [hps, decide_True, if_pos]
        rw [ih]
        simp [List.take_succ_cons, List.take_zero]
    · have hskip : (p :: ps).filter (fun q => decide (pidKey q.pid = some s)) =
          ps.filter (fun q => decide (pidKey q.pid = some s)) := by
        simp [List.filter_cons, hps]
      rw [hskip]
      cases hp : pidKey p.pid with
      | none =>
        simp only [dedupByPid, hp]
        rw [List.filter_cons]
        simp only [hp]
        have : (decide ((none : Option String) = some s)) = false := by simp
        rw [this]
        simp only [Bool.false_eq_true, if_neg, ite_false]
        exact ih seen
      | some t =>
        have hts : t ≠ s := by
          intro hc; exact hps (by rw [hp, hc])
        simp only [dedupByPid, hp]
        by_cases ht : t ∈ seen
        · rw [if_pos ht]
          exact ih seen
        · rw [if_neg ht]
          rw [List.filter_cons]
          simp only [hp]
          have : (decide (some t = some s)) = false := by simp [hts]
          rw [this]
          simp only [Bool.false_eq_true, if_neg, ite_false]
          rw [ih]
          by_cases hst : s ∈ seen
          · rw [if_pos hst, if_pos (List.mem_cons_of_mem _ hst)]
          · have hnotc : s ∉ t :: seen := by
              intro hc
              rcases List.mem_cons.mp hc with hc | hc
              · exact hts hc.symm
              · exact hst hc
            rw [if_neg hst, if_neg hnotc]

/-! Budget bookkeeping of `crawl_post` (`src/nga_client.py` 568-575 and
594-596).  The monotonic clock is abstracted into an explicit
elapsed-milliseconds value (resp. an oracle giving the elapsed time at each
successive budget check). -/

/-- The `out_of_budget` closure of `crawl_post`:
`overall_budget_ms > 0 and (time.monotonic() - crawl_start) * 1000 >= overall_budget_ms`. -/
def out_of_budget (overallBudgetMs elapsedMs : Nat) : Bool :=
  decide (overallBudgetMs > 0 ∧ elapsedMs ≥ overallBudgetMs)

/-- The budget gate inside `crawl_post.fetch_page`: when the budget test
fires the page is not fetched and `[]` is returned, otherwise the fetch
proceeds (its result is abstracted as `pageResult`). -/
def fetch_page (overallBudgetMs elapsedMs : Nat) (pageResult : List Post) : List Post :=
  if overallBudgetMs > 0 ∧ elapsedMs ≥ overallBudgetMs then [] else pageResult

/-- Loop body of `_fetch_pages_range`: iterate over the page numbers,
checking `out_of_budget()` before each fetch (the elapsed time at the k-th
check is `elapsedAt k`), stopping after `EMPTY_PAGE_STOP = 2` consecutive
empty pages or once `max_comments` is reached. -/
def fetchPagesRangeLoop (budget : Nat) (elapsedAt : Nat → Nat) (fetch : Nat → List Post)
    (maxComments : Int) : List Nat → Nat → Nat → List Post → List Post
  | [], _, _, posts => posts
  | pageNum :: rest, k, consecutiveEmpty, posts =>
    if budget > 0 ∧ elapsedAt k ≥ budget then posts
    else
      let arr := fetch pageNum
      if arr = [] then
        if consecutiveEmpty + 1 ≥ 2 then posts
        else fetchPagesRangeLoop budget elapsedAt fetch maxComments rest (k + 1)
          (consecutiveEmpty + 1) posts
      else
        let newPosts := posts ++ arr
        if maxComments ≠ 0 ∧ maxComments > 0 ∧ (newPosts.length : Int) ≥ maxComments then newPosts
        else fetchPagesRangeLoop budget elapsedAt fetch maxComments rest (k + 1) 0 newPosts

/-- Embedding of `_fetch_pages_range`: the page range is
`range(max(2, start_page), max(1, end_page_inclusive) + 1)`. -/
def fetchPagesRange (budget : Nat) (elapsedAt : Nat → Nat) (fetch : Nat → List Post)
    (maxComments : Int) (startPage endPageInclusive : Nat) (posts : List Post) : List Post :=
  fetchPagesRangeLoop budget elapsedAt fetch maxComments
    (List.range' (max 2 startPage) (max 1 endPageInclusive + 1 - max 2 startPage)) 0 0 posts

/-! ## Claim C2: the merge step of `crawl_post` -/

instance : IsTotal Post (fun p q => floorKey p ≤ floorKey q) :=
  ⟨fun a b => le_total (floorKey a) (floorKey b)⟩

instance : IsTrans Post (fun p q => floorKey p ≤ floorKey q) :=
  ⟨fun _ _ _ hab hbc => le_trans hab hbc⟩

/-- A list permutation-equal to a list of length at most one is that list. -/
theorem perm_eq_of_length_le_one {α : Type} {l₁ l₂ : List α}
    (h : l₁.Perm l₂) (hl : l₂.length ≤ 1) : l₁ = l₂ := by
  match l₂, hl with
  | [], _ => exact List.perm_nil.mp h
  | [a], _ => exact List.perm_singleton.mp h

/-- Claim C2: the merge step of `crawl_post` keeps, for every truthy pid
value, exactly the first input occurrence carrying that pid (posts without a
pid are all kept, hence never treated as duplicates of each other); the
merged list is a permutation of the dedup output sorted non-decreasingly by
the floor key (missing floors get the `10 ^ 9` sentinel, hence sink last);
and a requested cap `N > 0` keeps exactly `min(N, merged count)` entries
that are key-minimal among the merged posts. -/
theorem mergePosts_dedup_sort_cap (l : List Post) (N : Int) :
    (∀ s : String, (mergePosts l).filter (fun p => decide (pidKey p.pid = some s)) =
        (l.filter (fun p => decide (pidKey p.pid = some s))).take 1)
    ∧ (mergePosts l).Perm (dedupByPid l [])
    ∧ List.Pairwise (fun p q => floorKey p ≤ floorKey q) (mergePosts l)
    ∧ (N > 0 →
        (applyCap N (mergePosts l)).length = min N.toNat (mergePosts l).length
        ∧ ∀ x ∈ applyCap N (mergePosts l), ∀ y ∈ (mergePosts l).drop N.toNat,
            floorKey x ≤ floorKey y) := by
  have hperm : (mergePosts l).Perm (dedupByPid l []) :=
    List.perm_insertionSort (fun p q => floorKey p ≤ floorKey q) (dedupByPid l [])
  have hsorted : List.Pairwise (fun p q => floorKey p ≤ floorKey q) (mergePosts l) :=
    List.sorted_insertionSort (fun p q => floorKey p ≤ floorKey q) (dedupByPid l [])
  refine ⟨?_, hperm, hsorted, ?_⟩
  · intro s
    have hfil := hperm.filter (fun p => decide (pidKey p.pid = some s))
    rw [dedupByPid_filter l [] s] at hfil
    simp only [List.not_mem_nil, if_neg, if_false] at hfil
    refine perm_eq_of_length_le_one hfil ?_
    rw [List.length_take]
    exact min_le_left _ _
  · intro hN
    have hcap : applyCap N (mergePosts l) = (mergePosts l).take N.toNat := by
      unfold applyCap
      rw [if_pos ⟨ne_of_gt hN, hN⟩]
    constructor
    · rw [hcap, List.length_take]
    · intro x hx y hy
      rw [hcap] at hx
      have := hsorted
      rw [← List.take_append_drop N.toNat (mergePosts l)] at this
      exact (List.pairwise_append.mp this).2.2 x hx y hy

/-- Concrete posts exercising the merge: a duplicated pid, pid-less posts
and an out-of-order floor. -/
def demoPosts : List Post :=
  [⟨some "a", some 5, "", "", none, 0⟩,
   ⟨none, none, "", "", none, 0⟩,
   ⟨some "a", some 3, "", "", none, 0⟩,
   ⟨some "b", some 1, "", "", none, 0⟩,
   ⟨none, some 2, "", "", none, 0⟩]

/-- Witness for C2: the cap clause of `mergePosts_dedup_sort_cap`
instantiated at `demoPosts` with cap 2. -/
theorem mergePosts_dedup_sort_cap_witness :
    (0 : Int) < 2 ∧
      ((applyCap 2 (mergePosts demoPosts)).length = min (2 : Int).toNat (mergePosts demoPosts).length
        ∧ ∀ x ∈ applyCap 2 (mergePosts demoPosts), ∀ y ∈ (mergePosts demoPosts).drop (2 : Int).toNat,
            floorKey x ≤ floorKey y) :=
  ⟨by decide, (mergePosts_dedup_sort_cap demoPosts 2).2.2.2 (by decide)⟩

/-! ## Claim C1: the wall-clock crawl budget

The claim asserts that a budget of `0` ms admits no page fetch after the
first page.  The code guards every budget test with `overall_budget_ms > 0`,
so a `0` budget disables the budget entirely: every fetch is admitted no
matter how much time has elapsed. -/

/-- Counterexample to C1 as stated: with a budget of `0` ms and an hour of
wall-clock time already elapsed, `out_of_budget` still reports `false`, the
gate inside `fetch_page` still admits the fetch, and a widening sweep still
fetches a page and appends its posts. -/
theorem budget_zero_admits_fetches :
    out_of_budget 0 3600000 = false
    ∧ fetch_page 0 3600000 [⟨some "9", some 9, "", "", none, 0⟩] =
        [⟨some "9", some 9, "", "", none, 0⟩]
    ∧ fetchPagesRange 0 (fun _ => 3600000) (fun _ => [⟨some "9", some 9, "", "", none, 0⟩])
        0 2 2 [] = [⟨some "9", some 9, "", "", none, 0⟩] := by
  refine ⟨rfl, rfl, ?_⟩
  decide

/-- Amended C1: the budget check treats `0` as "no budget" (every fetch is
admitted); for every positive budget, once the elapsed time reaches the
budget no further fetch is admitted — `fetch_page` returns `[]` without
fetching, `out_of_budget` reports `true`, and `_fetch_pages_range` returns
its accumulated posts unchanged. -/
theorem budget_semantics (b e : Nat) (elapsedAt : Nat → Nat) (fetch : Nat → List Post)
    (mc : Int) (startPage endPage : Nat) (posts r : List Post)
    (hb : 0 < b) (he : b ≤ e) (hall : ∀ j, b ≤ elapsedAt j) :
    out_of_budget b e = true
    ∧ fetch_page b e r = []
    ∧ fetchPagesRange b elapsedAt fetch mc startPage endPage posts = posts
    ∧ fetch_page 0 e r = r := by
  refine ⟨by simp [out_of_budget, hb, he], by simp [fetch_page, hb, he], ?_,
    by simp [fetch_page]⟩
  unfold fetchPagesRange
  cases List.range' (max 2 startPage) (max 1 endPage + 1 - max 2 startPage) with
  | nil => rfl
  | cons p rest =>
    unfold fetchPagesRangeLoop
    rw [if_pos ⟨hb, hall 0⟩]

/-- Witness for the amended C1 at a concrete budget, elapsed trace and page
range. -/
theorem budget_semantics_witness :
    ((0 : Nat) < 5 ∧ (5 : Nat) ≤ 9 ∧ ∀ j : Nat, 5 ≤ (fun _ : Nat => 12) j)
    ∧ (out_of_budget 5 9 = true
        ∧ fetch_page 5 9 [⟨none, none, "", "", none, 0⟩] = []
        ∧ fetchPagesRange 5 (fun _ => 12) (fun _ => [⟨none, none, "", "", none, 0⟩])
            0 2 40 [⟨some "z", some 0, "", "", none, 0⟩] = [⟨some "z", some 0, "", "", none, 0⟩]
        ∧ fetch_page 0 9 [⟨none, none, "", "", none, 0⟩] = [⟨none, none, "", "", none, 0⟩]) :=
  ⟨⟨by decide, by decide, fun _ => by show (5 : Nat) ≤ 12; decide⟩,
    budget_semantics 5 9 (fun _ => 12) (fun _ => [⟨none, none, "", "", none, 0⟩])
      0 2 40 [⟨some "z", some 0, "", "", none, 0⟩] [⟨none, none, "", "", none, 0⟩]
      (by decide) (by decide) (fun _ => by show (5 : Nat) ≤ 12; decide)⟩

/-! ## Edit distance (`_levenshtein`, `src/nga_client.py` 1269-1287)

The source computes the classic single-row dynamic programme.  The
embedding `levenshtein` mirrors the row updates exactly; `levRef` is the
textbook recursive Levenshtein distance used as the mathematical reference
the claim compares against, and the two are proved equal. -/

/-- Inner loop of the single-row DP (`for j in range(1, lb + 1)`): `diag`
is `prev` (the old `dp[j-1]`), `left` is the freshly written `dp[j-1]`,
`up :: ups` are the old `dp[j..]` values, and the characters of `b` drive
the column index. -/
def dpGo (x : Char) : Nat → Nat → List Char → List Nat → List Nat
  | _, _, [], _ => []
  | _, _, _ :: _, [] => []
  | diag, left, y :: ys, up :: ups =>
    let v := min (up + 1) (min (left + 1) (diag + (if x = y then 0 else 1)))
    v :: dpGo x up v ys ups

/-- One outer iteration of the DP (`prev = dp[0]; dp[0] = i; ...`). -/
def dpStep (x : Char) (b : List Char) (row : List Nat) : List Nat :=
  match row with
  | [] => []
  | d :: rest => (d + 1) :: dpGo x d (d + 1) b rest

/-- Embedding of `_levenshtein`: empty-string shortcuts, then the row DP
seeded with `dp = list(range(lb + 1))`, returning the final `dp[lb]`. -/
def levenshtein (a b : List Char) : Nat :=
  if a = [] then b.length
  else if b = [] then a.length
  else (a.foldl (fun row x => dpStep x b row) (List.range (b.length + 1))).getLastD 0

/-- Textbook recursive Levenshtein distance: the mathematical reference
definition of edit distance the claim compares `_levenshtein` against. -/
def levRef : List Char → List Char → Nat
  | [], ys => ys.length
  | x :: xs, [] => (x :: xs).length
  | x :: xs, y :: ys =>
    min (levRef xs ys + (if x = y then 0 else 1))
      (min (levRef (x :: xs) ys + 1) (levRef xs (y :: ys) + 1))
termination_by a b => a.length + b.length
decreasing_by all_goals (simp only [List.length_cons, List.length_append, List.length_nil]; omega)

theorem levRef_nil_left (b : List Char) : levRef [] b = b.length := by
  simp [levRef]

theorem levRef_nil_right (a : List Char) : levRef a [] = a.length := by
  cases a <;> simp [levRef]

theorem levRef_cons_cons (x y : Char) (xs ys : List Char) :
    levRef (x :: xs) (y :: ys) =
      min (levRef xs ys + (if x = y then 0 else 1))
        (min (levRef (x :: xs) ys + 1) (levRef xs (y :: ys) + 1)) := by
  simp only [levRef]

/-- Distributing an addition over a binary minimum. -/
theorem min_add_right (a b c : Nat) : min a b + c = min (a + c) (b + c) := by omega

/-- Identical strings have distance zero. -/
theorem levRef_self (a : List Char) : levRef a a = 0 := by
  induction a with
  | nil => simp [levRef]
  | cons x xs ih =>
    rw [levRef_cons_cons, if_pos rfl]
    omega

/-- Prepending one character to the first string changes the distance by at
most one. -/
theorem levRef_cons_left_le (x : Char) (a c : List Char) :
    levRef (x :: a) c ≤ levRef a c + 1 := by
  cases c with
  | nil => rw [levRef_nil_right, levRef_nil_right]; simp
  | cons z cs =>
    rw [levRef_cons_cons]
    omega

/-- Prepending one character to the second string changes the distance by at
most one. -/
theorem levRef_cons_right_le (y : Char) (a c : List Char) :
    levRef a (y :: c) ≤ levRef a c + 1 := by
  cases a with
  | nil => rw [levRef_nil_left, levRef_nil_left]; simp
  | cons x xs =>
    rw [levRef_cons_cons]
    omega

/-- Upper bound: delete all of one string, insert all of the other. -/
theorem levRef_le_add (a c : List Char) : levRef a c ≤ a.length + c.length := by
  induction a with
  | nil => rw [levRef_nil_left]; simp
  | cons x xs ih =>
    calc levRef (x :: xs) c ≤ levRef xs c + 1 := levRef_cons_left_le x xs c
    _ ≤ xs.length + c.length + 1 := by omega
    _ = (x :: xs).length + c.length := by simp [List.length_cons]; omega

/-- Lower bound: the distance is at least the length difference. -/
theorem levRef_length_lower (b c : List Char) :
    c.length ≤ levRef b c + b.length ∧ b.length ≤ levRef b c + c.length := by
  match b, c with
  | [], c => rw [levRef_nil_left]; simp
  | x :: bs, [] => rw [levRef_nil_right]; simp
  | x :: bs, y :: cs =>
    have I1 := levRef_length_lower bs cs
    have I2 := levRef_length_lower (x :: bs) cs
    have I3 := levRef_length_lower bs (y :: cs)
    rw [levRef_cons_cons]
    simp only [List.length_cons] at *
    omega
termination_by b.length + c.length
decreasing_by all_goals (simp only [List.length_cons, List.length_append, List.length_nil]; omega)

/-- Edit distance is symmetric. -/
theorem levRef_comm (a b : List Char) : levRef a b = levRef b a := by
  match a, b with
  | [], b => rw [levRef_nil_left, levRef_nil_right]
  | x :: xs, [] => rw [levRef_nil_left, levRef_nil_right]
  | x :: xs, y :: ys =>
    have I1 := levRef_comm xs ys
    have I2 := levRef_comm (x :: xs) ys
    have I3 := levRef_comm xs (y :: ys)
    have hc : (if x = y then 0 else 1) = (if y = x then 0 else 1) := by
      by_cases h : x = y
      · rw [if_pos h, if_pos h.symm]
      · rw [if_neg h, if_neg (fun hc => h hc.symm)]
    rw [levRef_cons_cons, levRef_cons_cons, hc]
    omega
termination_by a.length + b.length
decreasing_by all_goals (simp only [List.length_cons, List.length_append, List.length_nil]; omega)

/-- The substitution cost satisfies the triangle inequality. -/
theorem costTriangle (x y z : Char) :
    (if x = z then 0 else 1) ≤ ((if x = y then 0 else 1) : Nat) + (if y = z then 0 else 1) := by
  by_cases hxz : x = z
  · rw [if_pos hxz]; omega
  · rw [if_neg hxz]
    by_cases hxy : x = y
    · subst hxy
      rw [if_pos rfl, if_neg hxz]
    · rw [if_neg hxy]; omega

/-- Triangle inequality for the reference edit distance. -/
theorem levRef_triangle (a b c : List Char) :
    levRef a c ≤ levRef a b + levRef b c := by
  match a, b, c with
  | a, [], c =>
    rw [levRef_nil_right, levRef_nil_left]
    exact levRef_le_add a c
  | [], y :: bs, c =>
    rw [levRef_nil_left, levRef_nil_left]
    have := (levRef_length_lower (y :: bs) c).1
    omega
  | x :: as, y :: bs, [] =>
    rw [levRef_nil_right, levRef_nil_right]
    have := (levRef_length_lower (x :: as) (y :: bs)).2
    omega
  | x :: as, y :: bs, z :: cs =>
    have hA : levRef (x :: as) (z :: cs) ≤
        levRef as cs + (if x = z then 0 else 1) := by rw [levRef_cons_cons]; omega
    have hB : levRef (x :: as) (z :: cs) ≤ levRef (x :: as) cs + 1 := by
      rw [levRef_cons_cons]; omega
    have hC : levRef (x :: as) (z :: cs) ≤ levRef as (z :: cs) + 1 := by
      rw [levRef_cons_cons]; omega
    have hab := levRef_cons_cons x y as bs
    have hbc := levRef_cons_cons y z bs cs
    have I1 := levRef_triangle as bs cs
    have I2 := levRef_triangle (x :: as) (y :: bs) cs
    have I3 := levRef_triangle as (y :: bs) (z :: cs)
    have I4 := levRef_triangle (x :: as) bs (z :: cs)
    have I5 := levRef_triangle as bs (z :: cs)
    have H1 := levRef_cons_right_le z bs cs
    have Hc := costTriangle x y z
    omega
termination_by a.length + b.length + c.length
decreasing_by all_goals (simp only [List.length_cons, List.length_append, List.length_nil]; omega)

set_option maxHeartbeats 1600000 in
/-- Snoc-recurrence: the reference distance also satisfies the recurrence
on final characters, which is the recurrence the row DP implements. -/
theorem levRef_snoc (x y : Char) (a b : List Char) :
    levRef (a ++ [x]) (b ++ [y]) =
      min (levRef a b + (if x = y then 0 else 1))
        (min (levRef (a ++ [x]) b + 1) (levRef a (b ++ [y]) + 1)) := by
  match a, b with
  | [], [] =>
    simp only [List.nil_append]
    rw [levRef_cons_cons]
  | [], y2 :: bs =>
    simp only [List.nil_append, List.cons_append]
    have E1 := levRef_cons_cons x y2 [] (bs ++ [y])
    have E2 := levRef_cons_cons x y2 [] bs
    have IH := levRef_snoc x y [] bs
    simp only [List.nil_append] at IH
    simp only [levRef_nil_left, List.length_append, List.length_cons,
      List.length_nil] at E1 E2 IH ⊢
    omega
  | x2 :: as, [] =>
    simp only [List.nil_append, List.cons_append]
    have E1 := levRef_cons_cons x2 y (as ++ [x]) []
    have E2 := levRef_cons_cons x2 y as []
    have IH := levRef_snoc x y as []
    simp only [List.nil_append] at IH
    simp only [levRef_nil_right, levRef_nil_left, List.length_append, List.length_cons,
      List.length_nil] at E1 E2 IH ⊢
    omega
  | x2 :: as, y2 :: bs =>
    simp only [List.cons_append]
    have EL := levRef_cons_cons x2 y2 (as ++ [x]) (bs ++ [y])
    have E1 := levRef_cons_cons x2 y2 as bs
    have E2 := levRef_cons_cons x2 y2 (as ++ [x]) bs
    have E3 := levRef_cons_cons x2 y2 as (bs ++ [y])
    have IH1 := levRef_snoc x y as bs
    have IH2 := levRef_snoc x y (x2 :: as) bs
    have IH3 := levRef_snoc x y as (y2 :: bs)
    simp only [List.cons_append] at IH2 IH3
    rw [EL, IH1, IH2, IH3, E1, E2, E3]
    apply le_antisymm <;>
      · simp only [min_add_right]
        repeat' apply le_min
        all_goals omega
termination_by a.length + b.length
decreasing_by all_goals (simp only [List.length_cons, List.length_append, List.length_nil]; omega)

/-! Correctness of the single-row DP: the row maintained by the fold holds
the reference distances of the processed prefix of `a` against every prefix
of `b`. -/

/-- Reference values of the old row past column `acc`: entry `j` is the
distance of `p` against `acc ++ (first j+1 chars of r)`. -/
def oldVals (p : List Char) : List Char → List Char → List Nat
  | _, [] => []
  | acc, y :: ys => levRef p (acc ++ [y]) :: oldVals p (acc ++ [y]) ys

theorem dpGo_spec (x : Char) (p : List Char) (r : List Char) : ∀ acc : List Char,
    dpGo x (levRef p acc) (levRef (p ++ [x]) acc) r (oldVals p acc r) =
      oldVals (p ++ [x]) acc r := by
  induction r with
  | nil => intro acc; rfl
  | cons y ys ih =>
    intro acc
    show (min (levRef p (acc ++ [y]) + 1)
        (min (levRef (p ++ [x]) acc + 1) (levRef p acc + (if x = y then 0 else 1)))) ::
        dpGo x (levRef p (acc ++ [y]))
          (min (levRef p (acc ++ [y]) + 1)
            (min (levRef (p ++ [x]) acc + 1) (levRef p acc + (if x = y then 0 else 1))))
          ys (oldVals p (acc ++ [y]) ys) =
      levRef (p ++ [x]) (acc ++ [y]) :: oldVals (p ++ [x]) (acc ++ [y]) ys
    have hv : min (levRef p (acc ++ [y]) + 1)
        (min (levRef (p ++ [x]) acc + 1) (levRef p acc + (if x = y then 0 else 1))) =
        levRef (p ++ [x]) (acc ++ [y]) := by
      rw [levRef_snoc x y p acc]
      omega
    rw [hv, ih (acc ++ [y])]

theorem dpStep_spec (x : Char) (b p : List Char) :
    dpStep x b (levRef p [] :: oldVals p [] b) =
      levRef (p ++ [x]) [] :: oldVals (p ++ [x]) [] b := by
  show (levRef p [] + 1) :: dpGo x (levRef p []) (levRef p [] + 1) b (oldVals p [] b) =
    levRef (p ++ [x]) [] :: oldVals (p ++ [x]) [] b
  have h0 : levRef p [] + 1 = levRef (p ++ [x]) [] := by
    rw [levRef_nil_right, levRef_nil_right, List.length_append]
    simp
  rw [h0, dpGo_spec x p b []]

theorem oldVals_nil_left (b : List Char) : ∀ acc : List Char,
    oldVals [] acc b = List.range' (acc.length + 1) b.length := by
  induction b with
  | nil => intro acc; rfl
  | cons y ys ih =>
    intro acc
    show levRef [] (acc ++ [y]) :: oldVals [] (acc ++ [y]) ys = _
    rw [levRef_nil_left, ih (acc ++ [y])]
    simp only [List.length_append, List.length_singleton, List.length_cons, List.length_nil]
    rw [List.range'_succ]

theorem initRow_eq (b : List Char) :
    List.range (b.length + 1) = levRef [] [] :: oldVals [] [] b := by
  rw [levRef_nil_left, oldVals_nil_left b []]
  rw [List.range_eq_range', List.range'_succ]
  rfl

theorem oldVals_getLastD (p : List Char) (r : List Char) : ∀ acc : List Char,
    (oldVals p acc r).getLastD (levRef p acc) = levRef p (acc ++ r) := by
  induction r with
  | nil => intro acc; simp [oldVals]
  | cons y ys ih =>
    intro acc
    show (levRef p (acc ++ [y]) :: oldVals p (acc ++ [y]) ys).getLastD (levRef p acc) = _
    rw [List.getLastD_cons, ih (acc ++ [y])]
    simp

theorem foldl_dpStep (b : List Char) (a : List Char) : ∀ p : List Char,
    a.foldl (fun row x => dpStep x b row) (levRef p [] :: oldVals p [] b) =
      levRef (p ++ a) [] :: oldVals (p ++ a) [] b := by
  induction a with
  | nil => intro p; simp
  | cons x xs ih =>
    intro p
    rw [List.foldl_cons, dpStep_spec, ih (p ++ [x])]
    simp

/-- The single-row DP of `_levenshtein` computes the reference edit
distance. -/
theorem levenshtein_eq_levRef (a b : List Char) : levenshtein a b = levRef a b := by
  unfold levenshtein
  by_cases ha : a = []
  · subst ha
    rw [if_pos rfl, levRef_nil_left]
  · rw [if_neg ha]
    by_cases hb : b = []
    · subst hb
      rw [if_pos rfl, levRef_nil_right]
    · rw [if_neg hb]
      rw [initRow_eq, foldl_dpStep b a [], List.nil_append, List.getLastD_cons,
        oldVals_getLastD a b [], List.nil_append]

/-- Claim C8: `_levenshtein` computes the Levenshtein edit distance — it
agrees with the textbook recursive definition, is zero on identical strings,
measures length against the empty string, is symmetric, and satisfies the
triangle inequality. -/
theorem levenshtein_is_edit_distance :
    (∀ a b : List Char, levenshtein a b = levRef a b)
    ∧ (∀ a : List Char, levenshtein a a = 0)
    ∧ (∀ a : List Char, levenshtein a [] = a.length ∧ levenshtein [] a = a.length)
    ∧ (∀ a b : List Char, levenshtein a b = levenshtein b a)
    ∧ (∀ a b c : List Char, levenshtein a c ≤ levenshtein a b + levenshtein b c) := by
  refine ⟨levenshtein_eq_levRef, ?_, ?_, ?_, ?_⟩
  · intro a
    rw [levenshtein_eq_levRef, levRef_self]
  · intro a
    rw [levenshtein_eq_levRef, levenshtein_eq_levRef, levRef_nil_left, levRef_nil_right]
    exact ⟨rfl, rfl⟩
  · intro a b
    rw [levenshtein_eq_levRef, levenshtein_eq_levRef, levRef_comm]
  · intro a b c
    rw [levenshtein_eq_levRef, levenshtein_eq_levRef, levenshtein_eq_levRef]
    exact levRef_triangle a b c

/-! ## Boards and the query engine (`src/nga_client.py` 1289-1427) -/

/-- Child reference (`{name, url, fid}` or `{name, url, stid}`). -/
structure ChildRef where
  name : String
  url : String
  cid : String
deriving DecidableEq, Repr

/-- Board record as persisted in the boards index. -/
structure Board where
  name : String
  url : String
  fid : String
  description : String
  category_l1 : String
  category_l2 : String
  forums : List ChildRef
  collections : List ChildRef
deriving DecidableEq, Repr

/-- Category-match test of `_query_by_category` for a single board:
`needle in category_l1 or category_l1 in needle`, else (only when
`category_l2` is truthy) the same test against `category_l2`; categories are
stripped and lower-cased first. -/
def categoryMatch (b : Board) (needle : List Char) : Bool :=
  let c1 := pyLower (pyStrip b.category_l1.data)
  let c2 := pyLower (pyStrip b.category_l2.data)
  (pyIn needle c1 || pyIn c1 needle) ||
    (decide (c2 ≠ []) && (pyIn needle c2 || pyIn c2 needle))

/-- Embedding of `_query_by_category`: the loop appends exactly the boards
passing `categoryMatch`, in input order. -/
def query_by_category (boards : List Board) (needle : List Char) : List Board :=
  boards.filter fun b => categoryMatch b needle

/-- Candidate strings of `_score_board`: the board's own name plus every
child forum and collection name, stripped and lower-cased, empty ones
skipped. -/
def boardCandidates (b : Board) : List (List Char) :=
  (if pyLower (pyStrip b.name.data) ≠ [] then [pyLower (pyStrip b.name.data)] else [])
    ++ (b.forums.map fun f => pyLower (pyStrip f.name.data)).filter (· ≠ [])
    ++ (b.collections.map fun c => pyLower (pyStrip c.name.data)).filter (· ≠ [])

/-- Embedding of `_score_board`: `10 ** 9` when there is no candidate, else
the minimum Levenshtein distance from the needle to a candidate. -/
def scoreBoard (b : Board) (needle : List Char) : Nat :=
  match (boardCandidates b).map fun x => levenshtein needle x with
  | [] => 10 ^ 9
  | v :: vs => vs.foldl min v

/-- Sort relation of the fuzzy branch of `query_boards`: ascending by the
pair `(score, name)` (Python compares the raw `name` string by code
points). -/
def fuzzyLe (needle : List Char) (b1 b2 : Board) : Prop :=
  scoreBoard b1 needle < scoreBoard b2 needle ∨
    (scoreBoard b1 needle = scoreBoard b2 needle ∧ b1.name ≤ b2.name)

instance fuzzyLeDec (needle : List Char) : DecidableRel (fuzzyLe needle) := by
  unfold fuzzyLe
  intro b1 b2
  infer_instance

instance fuzzyLeTotal (needle : List Char) : IsTotal Board (fuzzyLe needle) := by
  constructor
  intro a b
  rcases lt_trichotomy (scoreBoard a needle) (scoreBoard b needle) with h | h | h
  · exact Or.inl (Or.inl h)
  · rcases le_total a.name b.name with hn | hn
    · exact Or.inl (Or.inr ⟨h, hn⟩)
    · exact Or.inr (Or.inr ⟨h.symm, hn⟩)
  · exact Or.inr (Or.inl h)

instance fuzzyLeTrans (needle : List Char) : IsTrans Board (fuzzyLe needle) := by
  constructor
  intro a b c hab hbc
  rcases hab with h1 | ⟨h1, hn1⟩ <;> rcases hbc with h2 | ⟨h2, hn2⟩
  · exact Or.inl (h1.trans h2)
  · exact Or.inl (h2 ▸ h1)
  · exact Or.inl (h1 ▸ h2)
  · exact Or.inr ⟨h1.trans h2, hn1.trans hn2⟩

/-- Result of `query_boards`: the `query_type` field and the `results`
payload (`topk` in the returned dict is just the length of `results`). -/
inductive QueryResult where
  | category (results : List Board)
  | fuzzy (results : List Board)
deriving DecidableEq, Repr

/-- Embedding of `query_boards` once the index is loaded: lower-cased,
stripped needle; category containment first; else every board scored and
sorted ascending by `(score, name)` (Python's sort is stable, as is
`insertionSort` with this non-strict relation), keeping the first
`max(1, topk)`. -/
def query_boards (boards : List Board) (name : String) (topk : Int) : QueryResult :=
  let needle := pyLower (pyStrip name.data)
  let categoryResults := query_by_category boards needle
  if categoryResults ≠ [] then .category categoryResults
  else .fuzzy ((boards.insertionSort (fuzzyLe needle)).take (max 1 topk).toNat)

/-! ## Claim C3: category match takes priority and is not top-k-limited

The claim states the match condition as plain two-way containment against
`category_l1` *or* `category_l2`.  The code additionally requires
`category_l2` to be truthy before testing it, so a board whose
`category_l2` is empty does not match a query that merely contains the
empty `category_l2` — the claim as stated fails on such boards. -/

/-- Modelled from the spec: the claim's own category-match condition — a
case-insensitive two-way substring containment test against `category_l1`
and against `category_l2`, with no truthiness guard on `category_l2`. -/
def specCategoryMatch (b : Board) (needle : List Char) : Bool :=
  let c1 := pyLower (pyStrip b.category_l1.data)
  let c2 := pyLower (pyStrip b.category_l2.data)
  pyIn needle c1 || pyIn c1 needle || pyIn needle c2 || pyIn c2 needle

/-- A board used to refute C3 as stated: a non-matching nonempty
`category_l1` and an empty `category_l2`. -/
def guardBoard : Board := ⟨"n", "u", "1", "", "x", "", [], []⟩

/-- Counterexample to C3 as stated: `guardBoard`'s `category_l2` (the empty
string) is contained in the query `"y"`, so the claim's condition holds,
yet `query_boards` answers in fuzzy mode because the code only tests a
truthy `category_l2`. -/
theorem category_claim_counterexample :
    specCategoryMatch guardBoard (pyLower (pyStrip ("y" : String).data)) = true
    ∧ query_boards [guardBoard] "y" 3 = .fuzzy [guardBoard] := by
  constructor
  · decide
  · decide

/-- Amended C3: if any board passes the code's category test (two-way
containment against `category_l1`, or against a *nonempty* `category_l2`),
then `query_boards` returns exactly the full list of matching boards — not
limited by `topk` — in category mode, and the fuzzy branch is not taken. -/
theorem query_boards_category_priority (boards : List Board) (name : String) (topk : Int)
    (hmatch : ∃ b ∈ boards, categoryMatch b (pyLower (pyStrip name.data)) = true) :
    query_boards boards name topk =
      .category (query_by_category boards (pyLower (pyStrip name.data))) := by
  obtain ⟨b, hb, hm⟩ := hmatch
  have hne : query_by_category boards (pyLower (pyStrip name.data)) ≠ [] := by
    intro hc
    have : b ∈ query_by_category boards (pyLower (pyStrip name.data)) :=
      List.mem_filter.mpr ⟨hb, hm⟩
    rw [hc] at this
    exact List.not_mem_nil b this
  unfold query_boards
  rw [if_pos hne]

/-- Witness for the amended C3: two boards match the category query "游戏"
(one by `category_l1`, one by nonempty `category_l2`), both are returned
even though `topk = 1`. -/
theorem query_boards_category_priority_witness :
    (∃ b ∈ [(⟨"a", "u", "1", "", "网事杂谈", "", [], []⟩ : Board),
            (⟨"b", "u", "2", "", "游戏", "", [], []⟩ : Board),
            (⟨"c", "u", "3", "", "大分类", "游戏专区", [], []⟩ : Board)],
        categoryMatch b (pyLower (pyStrip ("游戏" : String).data)) = true)
    ∧ query_boards [(⟨"a", "u", "1", "", "网事杂谈", "", [], []⟩ : Board),
            (⟨"b", "u", "2", "", "游戏", "", [], []⟩ : Board),
            (⟨"c", "u", "3", "", "大分类", "游戏专区", [], []⟩ : Board)] "游戏" 1 =
        .category [(⟨"b", "u", "2", "", "游戏", "", [], []⟩ : Board),
            (⟨"c", "u", "3", "", "大分类", "游戏专区", [], []⟩ : Board)] := by
  refine ⟨⟨⟨"b", "u", "2", "", "游戏", "", [], []⟩, by decide, by decide⟩, ?_⟩
  rw [query_boards_category_priority _ _ _
    ⟨⟨"b", "u", "2", "", "游戏", "", [], []⟩, by decide, by decide⟩]
  decide

/-! ## Claim C10: boards with an empty stripped `category_l1` always match -/

/-- Claim C10: an empty (after stripping) `category_l1` passes the
containment test for every query, because the empty string is a substring
of every needle; hence any index containing such a board always answers in
category mode, with that board included, and the fuzzy branch is
unreachable. -/
theorem empty_category_always_matches (boards : List Board) (name : String) (topk : Int)
    (b : Board) (hb : b ∈ boards) (h1 : pyStrip b.category_l1.data = []) :
    categoryMatch b (pyLower (pyStrip name.data)) = true
    ∧ b ∈ query_by_category boards (pyLower (pyStrip name.data))
    ∧ query_boards boards name topk =
        .category (query_by_category boards (pyLower (pyStrip name.data))) := by
  have hm : categoryMatch b (pyLower (pyStrip name.data)) = true := by
    simp only [categoryMatch, h1]
    rw [show pyLower [] = [] from rfl, pyIn_nil]
    simp
  refine ⟨hm, List.mem_filter.mpr ⟨hb, hm⟩, ?_⟩
  exact query_boards_category_priority boards name topk ⟨b, hb, hm⟩

/-- Witness for C10: a whitespace-only `category_l1` board answers in
category mode even for a query matching nothing else. -/
theorem empty_category_always_matches_witness :
    ((⟨"w", "u", "9", "", " ", "", [], []⟩ : Board) ∈
        [(⟨"w", "u", "9", "", " ", "", [], []⟩ : Board)]
      ∧ pyStrip (" " : String).data = [])
    ∧ query_boards [(⟨"w", "u", "9", "", " ", "", [], []⟩ : Board)] "zzz" 3 =
        .category [(⟨"w", "u", "9", "", " ", "", [], []⟩ : Board)] := by
  refine ⟨⟨by decide, by decide⟩, ?_⟩
  rw [(empty_category_always_matches
    [(⟨"w", "u", "9", "", " ", "", [], []⟩ : Board)] "zzz" 3
    (⟨"w", "u", "9", "", " ", "", [], []⟩ : Board) (by decide) (by decide)).2.2]
  decide

/-! ## Claim C4: the fuzzy ranking path -/

theorem foldl_min_le_init (vs : List Nat) : ∀ v : Nat, vs.foldl min v ≤ v := by
  induction vs with
  | nil => intro v; simp
  | cons x xs ih =>
    intro v
    rw [List.foldl_cons]
    exact le_trans (ih (min v x)) (min_le_left v x)

theorem foldl_min_le_mem (vs : List Nat) : ∀ v : Nat, ∀ x ∈ vs, vs.foldl min v ≤ x := by
  induction vs with
  | nil => intro v x hx; cases hx
  | cons y ys ih =>
    intro v x hx
    rw [List.foldl_cons]
    rcases List.mem_cons.mp hx with rfl | hx
    · exact le_trans (foldl_min_le_init ys (min v x)) (min_le_right v x)
    · exact ih (min v y) x hx

theorem foldl_min_attained (vs : List Nat) : ∀ v : Nat,
    vs.foldl min v = v ∨ vs.foldl min v ∈ vs := by
  induction vs with
  | nil => intro v; exact Or.inl rfl
  | cons y ys ih =>
    intro v
    rw [List.foldl_cons]
    rcases ih (min v y) with h | h
    · rcases le_total v y with hvy | hvy
      · left; rw [h, min_eq_left hvy]
      · right
        rw [h, min_eq_right hvy]
        exact List.mem_cons_self y ys
    · exact Or.inr (List.mem_cons_of_mem y h)

/-- The score of `_score_board` is the sentinel when no candidate exists,
and otherwise the attained minimum of the Levenshtein distances from the
needle to the candidates. -/
theorem scoreBoard_min_spec (b : Board) (needle : List Char) :
    (boardCandidates b = [] → scoreBoard b needle = 10 ^ 9)
    ∧ (∀ x ∈ boardCandidates b, scoreBoard b needle ≤ levenshtein needle x)
    ∧ (boardCandidates b ≠ [] →
        ∃ x ∈ boardCandidates b, scoreBoard b needle = levenshtein needle x) := by
  cases hc : boardCandidates b with
  | nil =>
    refine ⟨fun _ => ?_, fun x hx => absurd hx (List.not_mem_nil x), fun h => absurd rfl h⟩
    unfold scoreBoard
    rw [hc]
    rfl
  | cons c cs =>
    have hscore : scoreBoard b needle =
        (cs.map fun x => levenshtein needle x).foldl min (levenshtein needle c) := by
      unfold scoreBoard
      rw [hc, List.map_cons]
    refine ⟨fun h => absurd h (by simp), ?_, fun _ => ?_⟩
    · intro x hx
      rcases List.mem_cons.mp hx with rfl | hx
      · rw [hscore]; exact foldl_min_le_init _ _
      · rw [hscore]
        exact foldl_min_le_mem _ _ _ (List.mem_map_of_mem _ hx)
    · rcases foldl_min_attained (cs.map fun x => levenshtein needle x) (levenshtein needle c)
        with h | h
      · exact ⟨c, List.mem_cons_self c cs, by rw [hscore, h]⟩
      · obtain ⟨x, hx, hxe⟩ := List.mem_map.mp h
        exact ⟨x, List.mem_cons_of_mem c hx, by rw [hscore, ← hxe]⟩

/-- Board `炉石传说` from the specification's ranking example (its category
deliberately matches nothing). -/
def hearthBoard : Board :=
  ⟨"炉石传说", "https://bbs.nga.cn/thread.php?fid=422", "422", "", "甲", "", [], []⟩

/-- Board `魔兽世界` from the specification's ranking example. -/
def wowBoard : Board :=
  ⟨"魔兽世界", "https://bbs.nga.cn/thread.php?fid=7", "7", "", "甲", "", [], []⟩

/-- Claim C4: when category matching finds nothing, `query_boards` answers
in fuzzy mode with the first `max(1, topk)` boards of the list sorted
ascending by `(score, name)` — a permutation of the whole index, sorted by
`fuzzyLe`, of length `min(max(1, topk), number of boards)`; the score is
the attained minimum Levenshtein distance over the board's candidate names
(sentinel `10 ^ 9` when there is none); and on the index
`[魔兽世界, 炉石传说]` with query `炉石` the board `炉石传说` ranks first. -/
theorem query_boards_fuzzy_spec :
    (∀ (boards : List Board) (name : String) (topk : Int),
      query_by_category boards (pyLower (pyStrip name.data)) = [] →
        query_boards boards name topk = .fuzzy
            ((boards.insertionSort (fuzzyLe (pyLower (pyStrip name.data)))).take
              (max 1 topk).toNat)
        ∧ (boards.insertionSort (fuzzyLe (pyLower (pyStrip name.data)))).Perm boards
        ∧ List.Pairwise (fuzzyLe (pyLower (pyStrip name.data)))
            (boards.insertionSort (fuzzyLe (pyLower (pyStrip name.data))))
        ∧ ((boards.insertionSort (fuzzyLe (pyLower (pyStrip name.data)))).take
              (max 1 topk).toNat).length = min (max 1 topk).toNat boards.length)
    ∧ (∀ (b : Board) (needle : List Char),
        (boardCandidates b = [] → scoreBoard b needle = 10 ^ 9)
        ∧ (∀ x ∈ boardCandidates b, scoreBoard b needle ≤ levenshtein needle x)
        ∧ (boardCandidates b ≠ [] →
            ∃ x ∈ boardCandidates b, scoreBoard b needle = levenshtein needle x))
    ∧ query_boards [wowBoard, hearthBoard] "炉石" 2 = .fuzzy [hearthBoard, wowBoard] := by
  refine ⟨?_, scoreBoard_min_spec, by decide⟩
  intro boards name topk hcat
  refine ⟨?_, List.perm_insertionSort _ boards, List.sorted_insertionSort _ boards, ?_⟩
  · unfold query_boards
    rw [if_neg (by simpa using hcat)]
  · rw [List.length_take,
      (List.perm_insertionSort (fuzzyLe (pyLower (pyStrip name.data))) boards).length_eq]

/-- Witness for C4: the fuzzy clause instantiated on the two-board example
index (its boards match no category for the query `炉石`). -/
theorem query_boards_fuzzy_spec_witness :
    query_by_category [wowBoard, hearthBoard] (pyLower (pyStrip ("炉石" : String).data)) = []
    ∧ query_boards [wowBoard, hearthBoard] "炉石" 2 = .fuzzy
        (([wowBoard, hearthBoard].insertionSort
            (fuzzyLe (pyLower (pyStrip ("炉石" : String).data)))).take (max 1 (2 : Int)).toNat) :=
  ⟨by decide, (query_boards_fuzzy_spec.1 [wowBoard, hearthBoard] "炉石" 2 (by decide)).1⟩

/-! ## Claim C5: the boards-index build (`src/nga_client.py` 1026-1051 and
1107-1153)

The shallow build (`build_boards_index`) deduplicates the crawled home
sections by `fid`, first occurrence kept, in crawl order.  The deep build
(`build_boards_index_with_boards`) launches one child-fetch task per input
board with a truthy URL and collects the task results with
`asyncio.as_completed`, i.e. in *completion* order: the collected list is
some permutation — depending on scheduling — of the per-board results in
input order.  That nondeterminism is modelled by quantifying over all
permutations of the task list. -/

/-- The child links fetched for one board (`_load_board_children`). -/
structure Children where
  forums : List ChildRef
  collections : List ChildRef
deriving DecidableEq, Repr

/-- Embedding of `build_boards_index_with_boards.load_one`: the board with
its `forums`/`collections` fields replaced by the fetched children (the
fetch itself is the collaborator capability `children`). -/
def load_one (children : Board → Children) (b : Board) : Board :=
  { b with forums := (children b).forums, collections := (children b).collections }

/-- The deep-phase task results in input (shallow) order: one task per
board with a truthy URL. -/
def deepTasks (children : Board → Children) (boards : List Board) : List Board :=
  (boards.filter fun b => b.url ≠ "").map (load_one children)

/-- The `seen_fid` dedup loop of `build_boards_index`: a board with a falsy
or already-seen `fid` is dropped. -/
def dedupByFid : List Board → List String → List Board
  | [], _ => []
  | b :: bs, seen =>
    if b.fid = "" ∨ b.fid ∈ seen then dedupByFid bs seen
    else b :: dedupByFid bs (b.fid :: seen)

theorem dedupByFid_mem {l : List Board} {seen : List String} {q : Board}
    (hq : q ∈ dedupByFid l seen) : q.fid ≠ "" ∧ q.fid ∉ seen := by
  induction l generalizing seen with
  | nil => simp [dedupByFid] at hq
  | cons b bs ih =>
    simp only [dedupByFid] at hq
    by_cases hb : b.fid = "" ∨ b.fid ∈ seen
    · rw [if_pos hb] at hq
      exact ih hq
    · rw [if_neg hb] at hq
      rcases List.mem_cons.mp hq with rfl | hq
      · push_neg at hb
        exact hb
      · have := ih hq
        refine ⟨this.1, fun hc => this.2 (List.mem_cons_of_mem _ hc)⟩

/-- The shallow dedup output carries pairwise-distinct fids. -/
theorem dedupByFid_pairwise (l : List Board) : ∀ seen : List String,
    List.Pairwise (fun p q => p.fid ≠ q.fid) (dedupByFid l seen) := by
  induction l with
  | nil => intro seen; simp [dedupByFid]
  | cons b bs ih =>
    intro seen
    simp only [dedupByFid]
    by_cases hb : b.fid = "" ∨ b.fid ∈ seen
    · rw [if_pos hb]
      exact ih seen
    · rw [if_neg hb]
      refine List.Pairwise.cons ?_ (ih (b.fid :: seen))
      intro q hq hc
      exact (dedupByFid_mem hq).2 (hc ▸ List.mem_cons_self b.fid seen)

/-- The shallow dedup output is a sublist of the input (insertion order is
preserved). -/
theorem dedupByFid_sublist (l : List Board) : ∀ seen : List String,
    (dedupByFid l seen).Sublist l := by
  induction l with
  | nil => intro seen; simp [dedupByFid]
  | cons b bs ih =>
    intro seen
    simp only [dedupByFid]
    by_cases hb : b.fid = "" ∨ b.fid ∈ seen
    · rw [if_pos hb]
      exact (ih seen).cons b
    · rw [if_neg hb]
      exact (ih (b.fid :: seen)).cons₂ b

/-- For every truthy fid, the shallow dedup keeps exactly the first input
board carrying it. -/
theorem dedupByFid_filter (l : List Board) : ∀ (seen : List String) (s : String),
    (dedupByFid l seen).filter (fun b => decide (b.fid = s)) =
      if s = "" ∨ s ∈ seen then []
      else (l.filter (fun b => decide (b.fid = s))).take 1 := by
  induction l with
  | nil => intro seen s; simp [dedupByFid]
  | cons b bs ih =>
    intro seen s
    simp only [dedupByFid]
    by_cases hdrop : b.fid = "" ∨ b.fid ∈ seen
    · rw [if_pos hdrop, ih seen s]
      by_cases hbs : b.fid = s
      · have hcond : s = "" ∨ s ∈ seen := hbs ▸ hdrop
        rw [if_pos hcond, if_pos hcond]
      · rw [List.filter_cons_of_neg]
        simp [hbs]
    · rw [if_neg hdrop]
      push_neg at hdrop
      by_cases hbs : b.fid = s
      · have hs1 : s ≠ "" := hbs ▸ hdrop.1
        have hs2 : s ∉ seen := hbs ▸ hdrop.2
        rw [List.filter_cons_of_pos (by simp [hbs]), ih (b.fid :: seen) s]
        rw [if_pos (Or.inr (hbs ▸ List.mem_cons_self b.fid seen))]
        rw [if_neg (by simp [hs1, hs2])]
        rw [List.filter_cons_of_pos (by simp [hbs])]
        simp
      · rw [List.filter_cons_of_neg (by simp [hbs]), ih (b.fid :: seen) s]
        rw [List.filter_cons_of_neg (by simp [hbs])]
        have hmem : (s = "" ∨ s ∈ b.fid :: seen) ↔ (s = "" ∨ s ∈ seen) := by
          constructor
          · rintro (h | h)
            · exact Or.inl h
            · rcases List.mem_cons.mp h with h | h
              · exact absurd h.symm hbs
              · exact Or.inr h
          · rintro (h | h)
            · exact Or.inl h
            · exact Or.inr (List.mem_cons_of_mem _ h)
        by_cases hc : s = "" ∨ s ∈ seen
        · rw [if_pos (hmem.mpr hc), if_pos hc]
        · rw [if_neg (fun h => hc (hmem.mp h)), if_neg hc]

/-- Demonstration shallow boards for the deep-phase counterexample. -/
def boardA : Board := ⟨"A", "https://bbs.nga.cn/thread.php?fid=1", "1", "", "", "", [], []⟩

/-- Second demonstration shallow board. -/
def boardB : Board := ⟨"B", "https://bbs.nga.cn/thread.php?fid=2", "2", "", "", "", [], []⟩

/-- Counterexample to C5 as stated: with two shallow boards, collecting the
deep-phase results in the completion order "B first, A second" is a
legitimate outcome of `asyncio.as_completed` (it is a permutation of the
task list), yet the resulting boards list is *not* in the shallow insertion
order. -/
theorem deep_order_counterexample :
    [load_one (fun _ => ⟨[], []⟩) boardB, load_one (fun _ => ⟨[], []⟩) boardA].Perm
        (deepTasks (fun _ => ⟨[], []⟩) [boardA, boardB])
    ∧ [load_one (fun _ => ⟨[], []⟩) boardB, load_one (fun _ => ⟨[], []⟩) boardA] ≠
        deepTasks (fun _ => ⟨[], []⟩) [boardA, boardB] := by
  constructor
  · have h : deepTasks (fun _ => ⟨[], []⟩) [boardA, boardB] =
        [load_one (fun _ => ⟨[], []⟩) boardA, load_one (fun _ => ⟨[], []⟩) boardB] := by
      decide
    rw [h]
    exact List.Perm.swap _ _ _
  · decide

/-- Amended C5: the shallow build's boards list is fid-deduplicated (first
occurrence kept, pairwise-distinct truthy fids, a sublist of the crawl
order); the deep phase produces exactly one entry per input board with a
URL — so `n` entries for `n` such boards — as a permutation (the completion
order) of the shallow list, preserving the fids as a multiset and hence
fid-dedup, but not necessarily the shallow insertion order. -/
theorem index_build_dedup_deep (hb boards : List Board) (children : Board → Children)
    (results : List Board) (hperm : results.Perm (deepTasks children boards))
    (hurl : ∀ b ∈ boards, b.url ≠ "") :
    List.Pairwise (fun p q => p.fid ≠ q.fid) (dedupByFid hb [])
    ∧ (dedupByFid hb []).Sublist hb
    ∧ (∀ s : String, s ≠ "" → (dedupByFid hb []).filter (fun b => decide (b.fid = s)) =
        (hb.filter (fun b => decide (b.fid = s))).take 1)
    ∧ (deepTasks children boards).map Board.fid = boards.map Board.fid
    ∧ results.length = boards.length
    ∧ (((deepTasks children boards).map Board.fid).Nodup → (results.map Board.fid).Nodup) := by
  have hfilter : boards.filter (fun b => b.url ≠ "") = boards :=
    List.filter_eq_self.mpr (fun b hbm => by simpa using hurl b hbm)
  have hfids : (deepTasks children boards).map Board.fid = boards.map Board.fid := by
    unfold deepTasks
    rw [hfilter, List.map_map]
    rfl
  refine ⟨dedupByFid_pairwise hb [], dedupByFid_sublist hb [], ?_, hfids, ?_, ?_⟩
  · intro s hs
    rw [dedupByFid_filter hb [] s, if_neg (by simp [hs])]
  · rw [hperm.length_eq]
    unfold deepTasks
    rw [hfilter, List.length_map]
  · intro hnodup
    exact ((hperm.map Board.fid).nodup_iff).mpr hnodup

/-- Witness for the amended C5: three shallow boards (one a duplicate fid),
the deep phase run on the deduplicated pair with an out-of-order completion,
still yields two entries with the same fids. -/
theorem index_build_dedup_deep_witness :
    ([load_one (fun _ => ⟨[], []⟩) boardB, load_one (fun _ => ⟨[], []⟩) boardA].Perm
        (deepTasks (fun _ => ⟨[], []⟩) [boardA, boardB])
      ∧ ∀ b ∈ [boardA, boardB], b.url ≠ "")
    ∧ (List.Pairwise (fun p q => p.fid ≠ q.fid) (dedupByFid [boardA, boardA, boardB] [])
      ∧ (dedupByFid [boardA, boardA, boardB] []).Sublist [boardA, boardA, boardB]
      ∧ (∀ s : String, s ≠ "" →
          (dedupByFid [boardA, boardA, boardB] []).filter (fun b => decide (b.fid = s)) =
            ([boardA, boardA, boardB].filter (fun b => decide (b.fid = s))).take 1)
      ∧ (deepTasks (fun _ => ⟨[], []⟩) [boardA, boardB]).map Board.fid =
          [boardA, boardB].map Board.fid
      ∧ [load_one (fun _ => ⟨[], []⟩) boardB, load_one (fun _ => ⟨[], []⟩) boardA].length =
          [boardA, boardB].length
      ∧ (((deepTasks (fun _ => ⟨[], []⟩) [boardA, boardB]).map Board.fid).Nodup →
          (([load_one (fun _ => ⟨[], []⟩) boardB,
             load_one (fun _ => ⟨[], []⟩) boardA]).map Board.fid).Nodup)) := by
  have h : deepTasks (fun _ => ⟨[], []⟩) [boardA, boardB] =
      [load_one (fun _ => ⟨[], []⟩) boardA, load_one (fun _ => ⟨[], []⟩) boardB] := by decide
  have hperm : [load_one (fun _ => ⟨[], []⟩) boardB, load_one (fun _ => ⟨[], []⟩) boardA].Perm
      (deepTasks (fun _ => ⟨[], []⟩) [boardA, boardB]) := by
    rw [h]
    exact List.Perm.swap _ _ _
  exact ⟨⟨hperm, by decide⟩,
    index_build_dedup_deep [boardA, boardA, boardB] [boardA, boardB] (fun _ => ⟨[], []⟩)
      [load_one (fun _ => ⟨[], []⟩) boardB, load_one (fun _ => ⟨[], []⟩) boardA]
      hperm (by decide)⟩

/-! ## Claim C9: error handling of `query_boards` / `get_board_structure`
(`src/nga_client.py` 1307-1328 and 1365-1386)

The file system is modelled as a map from paths to `none` (no file),
`some none` (file present but not readable/parseable as JSON) or
`some (some j)` (file parses to the JSON value `j`).  Python exceptions
escaping the functions are modelled as `Except.error`. -/

/-- JSON values as produced by `json.load` (numbers restricted to the
integers, which is all these theorems evaluate). -/
inductive Json where
  | null
  | bool (b : Bool)
  | num (n : Int)
  | str (s : String)
  | arr (items : List Json)
  | obj (fields : List (String × Json))

/-- Python truthiness of a loaded JSON value. -/
def jsonTruthy : Json → Bool
  | .null => false
  | .bool b => b
  | .num n => decide (n ≠ 0)
  | .str s => decide (s ≠ "")
  | .arr items => !items.isEmpty
  | .obj fields => !fields.isEmpty

/-- Dict lookup (`d.get(k)` on a parsed JSON object; duplicate keys have
already collapsed during parsing). -/
def jsonGet (fields : List (String × Json)) (k : String) : Option Json :=
  (fields.find? fun f => decide (f.1 = k)).map (·.2)

mutual

/-- Python `repr` of a loaded JSON value (delimiter switching for quotes
inside strings is not modelled; no theorem evaluates that case). -/
def pyRepr : Json → String
  | .null => "None"
  | .bool b => if b then "True" else "False"
  | .num n => toString n
  | .str s => "'" ++ s ++ "'"
  | .arr items => "[" ++ String.intercalate ", " (pyReprList items) ++ "]"
  | .obj fields => "\x7b" ++ String.intercalate ", " (pyReprFields fields) ++ "\x7d"

/-- Python `repr` of the items of a JSON array. -/
def pyReprList : List Json → List String
  | [] => []
  | j :: js => pyRepr j :: pyReprList js

/-- Python `repr` of the key-value pairs of a JSON object. -/
def pyReprFields : List (String × Json) → List String
  | [] => []
  | (k, v) :: fs => ("'" ++ k ++ "': " ++ pyRepr v) :: pyReprFields fs

end

/-- Python `str` of a loaded JSON value. -/
def pyStr : Json → String
  | .str s => s
  | j => pyRepr j

/-- Attribute access `x.get(...)` requires a dict; on anything else Python
raises `AttributeError`. -/
def asObj : Json → Except Unit (List (String × Json))
  | .obj fields => .ok fields
  | _ => .error ()

/-- Python iteration `for f in x`: lists yield their items, strings their
characters, dicts their keys; anything else raises `TypeError`. -/
def pyIter : Json → Except Unit (List Json)
  | .arr items => .ok items
  | .str s => .ok (s.data.map fun c => .str (String.mk [c]))
  | .obj fields => .ok (fields.map fun f => .str f.1)
  | _ => .error ()

/-- Embedding of `boards = list((index or {}).get("boards", []) or [])`:
raises when the index is a truthy non-dict, or when the boards value is
truthy but not iterable. -/
def getBoards (index : Json) : Except Unit (List Json) := do
  let base := if jsonTruthy index then index else .obj []
  let fields ← asObj base
  let boardsVal := (jsonGet fields "boards").getD (.arr [])
  pyIter (if jsonTruthy boardsVal then boardsVal else .arr [])

/-- Category test of `_query_by_category` on a raw JSON board: raises on a
non-dict board. -/
def categoryMatchJ (board : Json) (needle : List Char) : Except Unit Bool := do
  let fields ← asObj board
  let c1 := pyLower (pyStrip (pyStr ((jsonGet fields "category_l1").getD (.str ""))).data)
  let c2 := pyLower (pyStrip (pyStr ((jsonGet fields "category_l2").getD (.str ""))).data)
  pure ((pyIn needle c1 || pyIn c1 needle) ||
    (decide (c2 ≠ []) && (pyIn needle c2 || pyIn c2 needle)))

/-- The `_query_by_category` loop on raw JSON boards. -/
def queryByCategoryJ : List Json → List Char → Except Unit (List Json)
  | [], _ => .ok []
  | b :: bs, needle => do
    let m ← categoryMatchJ b needle
    let rest ← queryByCategoryJ bs needle
    pure (if m then b :: rest else rest)

/-- The `_score_board` computation on a raw JSON board: raises on a
non-dict board, a truthy non-iterable `forums`/`collections` value, or a
non-dict child entry. -/
def scoreBoardJ (board : Json) (needle : List Char) : Except Unit Nat := do
  let fields ← asObj board
  let nm := pyLower (pyStrip (pyStr ((jsonGet fields "name").getD (.str ""))).data)
  let fv := (jsonGet fields "forums").getD (.arr [])
  let fitems ← pyIter (if jsonTruthy fv then fv else .arr [])
  let fnames ← fitems.mapM fun f => do
    let ff ← asObj f
    pure (pyLower (pyStrip (pyStr ((jsonGet ff "name").getD (.str ""))).data))
  let cv := (jsonGet fields "collections").getD (.arr [])
  let citems ← pyIter (if jsonTruthy cv then cv else .arr [])
  let cnames ← citems.mapM fun c => do
    let cf ← asObj c
    pure (pyLower (pyStrip (pyStr ((jsonGet cf "name").getD (.str ""))).data))
  let cands := (if nm ≠ [] then [nm] else []) ++ fnames.filter (· ≠ []) ++ cnames.filter (· ≠ [])
  match cands.map fun x => levenshtein needle x with
  | [] => pure (10 ^ 9)
  | v :: vs => pure (vs.foldl min v)

/-- Outcome of a top-level index operation: an explicit unsuccessful result
carrying its error code, or a successful result (whose payload is modelled
by the typed `query_boards` above). -/
inductive OpOutcome where
  | failure (error : String)
  | success
deriving DecidableEq, Repr

instance : DecidableEq (Except Unit OpOutcome) := fun a b =>
  match a, b with
  | .ok x, .ok y => if h : x = y then isTrue (by rw [h]) else isFalse (by simp [h])
  | .error x, .error y => isTrue (by rfl)
  | .ok _, .error _ => isFalse (by simp)
  | .error _, .ok _ => isFalse (by simp)

/-- Path resolution shared by `query_boards` and `get_board_structure`: a
falsy `index_path` argument makes the code probe the candidate paths
(script directory, relative, current directory) and keep the first that
exists. -/
def resolveIndexPath (fileExists : String → Bool) (indexPath : Option String)
    (candidates : List String) : Option String :=
  match indexPath with
  | some p => if p ≠ "" then some p else candidates.find? fileExists
  | none => candidates.find? fileExists

/-- Reading and parsing the index file: `none` when `open` or `json.load`
raises (missing or unparseable file). -/
def loadIndex (fs : String → Option (Option Json)) (path : String) : Option Json :=
  match fs path with
  | some (some j) => some j
  | _ => none

/-- Outcome of `query_boards` run against the file system `fs`: explicit
failure when no path resolves or the file does not parse; otherwise the
boards are extracted and the category pass runs (and, when it matches
nothing, the scoring pass), any Python exception escaping as `.error`. -/
def query_boards_outcome (fs : String → Option (Option Json)) (candidates : List String)
    (indexPath : Option String) (name : String) : Except Unit OpOutcome :=
  match resolveIndexPath (fun p => (fs p).isSome) indexPath candidates with
  | none => .ok (.failure "index_not_found_or_invalid")
  | some path =>
    match loadIndex fs path with
    | none => .ok (.failure "index_not_found_or_invalid")
    | some index => do
      let boards ← getBoards index
      let needle := pyLower (pyStrip name.data)
      let catMatches ← queryByCategoryJ boards needle
      if !catMatches.isEmpty then pure .success
      else do
        let _ ← boards.mapM fun b => scoreBoardJ b needle
        pure .success

/-- Outcome of `get_board_structure` run against the file system `fs`: same
path resolution and load, then the structure loop reads the category and
name fields of every board (raising on a non-dict board). -/
def get_board_structure_outcome (fs : String → Option (Option Json)) (candidates : List String)
    (indexPath : Option String) : Except Unit OpOutcome :=
  match resolveIndexPath (fun p => (fs p).isSome) indexPath candidates with
  | none => .ok (.failure "index_not_found_or_invalid")
  | some path =>
    match loadIndex fs path with
    | none => .ok (.failure "index_not_found_or_invalid")
    | some index => do
      let boards ← getBoards index
      let _ ← boards.mapM asObj
      pure .success

/-- Claim C9 fails on the code: a resolvable index file holding the valid
JSON document `[1]` parses fine, so the claim requires a successful result
with a payload, but both operations raise `AttributeError` at
`(index or {}).get("boards", [])` and return nothing at all.  The failure
side of the claim does hold: an unresolvable path and an unparseable file
both yield the explicit error code. -/
theorem malformed_index_array_raises :
    query_boards_outcome
        (fun p => if p = "boards_index.json" then some (some (.arr [.num 1])) else none)
        ["boards_index.json"] none "炉石" = .error ()
    ∧ get_board_structure_outcome
        (fun p => if p = "boards_index.json" then some (some (.arr [.num 1])) else none)
        ["boards_index.json"] none = .error ()
    ∧ query_boards_outcome (fun _ => none) ["boards_index.json"] none "炉石" =
        .ok (.failure "index_not_found_or_invalid")
    ∧ query_boards_outcome (fun p => if p = "boards_index.json" then some none else none)
        ["boards_index.json"] none "炉石" = .ok (.failure "index_not_found_or_invalid")
    ∧ get_board_structure_outcome (fun _ => none) ["boards_index.json"] none =
        .ok (.failure "index_not_found_or_invalid")
    ∧ query_boards_outcome
        (fun p => if p = "boards_index.json" then
          some (some (.obj [("boards", .arr [.obj [("name", .str "炉石传说")]])])) else none)
        ["boards_index.json"] none "炉石" = .ok .success := by
  refine ⟨rfl, rfl, rfl, rfl, rfl, ?_⟩
  decide

/-! ## The page-URL template (`_build_page_url_template`,
`src/nga_client.py` 32-55)

The relevant parts of `urllib.parse` (`urlparse`, `urlunparse`,
`parse_qs`, `urlencode`, `quote_plus`, `unquote_plus`) are embedded on
`List Char`, together with Python `int()` over decimal literals and
`str.format` for a single positional `\x7b\x7d` placeholder. -/

/-- The `\x7b` character (written by codepoint so the placeholder can be
spelled in code). -/
def lbrace : Char := Char.ofNat 123

/-- The `\x7d` character. -/
def rbrace : Char := Char.ofNat 125

/-- Split a string at the first occurrence of `c`: the part before it and,
when present, the part after it. -/
def splitFirst (c : Char) : List Char → List Char × Option (List Char)
  | [] => ([], none)
  | x :: xs =>
    if x = c then ([], some xs)
    else
      let r := splitFirst c xs
      (x :: r.1, r.2)

/-- Characters allowed in a URL scheme (`scheme_chars` of `urllib.parse`). -/
def schemeChar (c : Char) : Bool :=
  c.isAlpha || c.isDigit || c = '+' || c = '-' || c = '.'

/-- Whether a string starts with an ASCII letter. -/
def headAlpha : List Char → Bool
  | [] => false
  | c :: _ => c.isAlpha

/-- Scheme extraction of `urlsplit`: the text before the first `:` becomes
the (lower-cased) scheme when it is nonempty, starts with a letter and
holds only scheme characters. -/
def splitScheme (url : List Char) : List Char × List Char :=
  match splitFirst ':' url with
  | (before, some after) =>
    if before ≠ [] ∧ headAlpha before ∧ before.all schemeChar
    then (pyLower before, after)
    else ([], url)
  | (_, none) => ([], url)

/-- Netloc extraction of `urlsplit`: after a leading `//`, up to the first
`/`, `?` or `#`. -/
def splitNetloc (url : List Char) : List Char × List Char :=
  if url.take 2 = ['/', '/'] then
    ((url.drop 2).takeWhile (fun c => !(c = '/' || c = '?' || c = '#')),
     (url.drop 2).dropWhile (fun c => !(c = '/' || c = '?' || c = '#')))
  else ([], url)

/-- Fragment split of `urlsplit` (at the first `#`). -/
def splitFragment (url : List Char) : List Char × List Char :=
  match splitFirst '#' url with
  | (before, some after) => (before, after)
  | (before, none) => (before, [])

/-- Query split of `urlsplit` (at the first `?`). -/
def splitQuery (url : List Char) : List Char × List Char :=
  match splitFirst '?' url with
  | (before, some after) => (before, after)
  | (before, none) => (before, [])

/-- Params split of `urlparse` (`_splitparams`): only when the path holds a
`;`, and only within its last `/`-segment. -/
def splitParamsPath (url : List Char) : List Char × List Char :=
  if ';' ∈ url then
    if '/' ∈ url then
      let seg := (url.reverse.takeWhile fun c => c ≠ '/').reverse
      let pre := (url.reverse.dropWhile fun c => c ≠ '/').reverse
      match splitFirst ';' seg with
      | (s1, some s2) => (pre ++ s1, s2)
      | (_, none) => (url, [])
    else
      match splitFirst ';' url with
      | (s1, some s2) => (s1, s2)
      | (_, none) => (url, [])
  else (url, [])

/-- Parsed URL components as returned by `urllib.parse.urlparse`. -/
structure ParsedUrl where
  scheme : List Char
  netloc : List Char
  path : List Char
  params : List Char
  query : List Char
  fragment : List Char
deriving DecidableEq, Repr

/-- Embedding of `urllib.parse.urlparse` (scheme, then netloc, then
fragment, then query, then params). -/
def urlparse (url : List Char) : ParsedUrl :=
  let s := splitScheme url
  let n := splitNetloc s.2
  let f := splitFragment n.2
  let q := splitQuery f.1
  let p := splitParamsPath q.1
  ⟨s.1, n.1, p.1, p.2, q.2, f.2⟩

/-- Embedding of `urllib.parse.urlunsplit`. -/
def urlunsplit (scheme netloc url query fragment : List Char) : List Char :=
  let url1 :=
    if netloc ≠ [] ∨ url.take 2 = ['/', '/'] then
      '/' :: '/' :: (netloc ++ (if url ≠ [] ∧ url.take 1 ≠ ['/'] then '/' :: url else url))
    else url
  let url2 := if scheme ≠ [] then scheme ++ ':' :: url1 else url1
  let url3 := if query ≠ [] then url2 ++ '?' :: query else url2
  if fragment ≠ [] then url3 ++ '#' :: fragment else url3

/-- Embedding of `urllib.parse.urlunparse`. -/
def urlunparse (u : ParsedUrl) : List Char :=
  urlunsplit u.scheme u.netloc
    (if u.params ≠ [] then u.path ++ ';' :: u.params else u.path) u.query u.fragment

/-- UTF-8 encoding of one character. -/
def utf8Encode (c : Char) : List Nat :=
  let n := c.toNat
  if n < 128 then [n]
  else if n < 2048 then [192 + n / 64, 128 + n % 64]
  else if n < 65536 then [224 + n / 4096, 128 + (n / 64) % 64, 128 + n % 64]
  else [240 + n / 262144, 128 + (n / 4096) % 64, 128 + (n / 64) % 64, 128 + n % 64]

/-- UTF-8 decoding of a byte sequence (replacement character on invalid
bytes; the replacement granularity of Python's `errors="replace"` on
truncated sequences is approximated, which no theorem evaluates). -/
def utf8DecodeAux : Nat → List Nat → List Char
  | 0, _ => []
  | _, [] => []
  | fuel + 1, b :: bs =>
    if b < 128 then Char.ofNat b :: utf8DecodeAux fuel bs
    else if 194 ≤ b ∧ b ≤ 223 then
      match bs with
      | b2 :: bs2 =>
        if 128 ≤ b2 ∧ b2 ≤ 191 then
          Char.ofNat ((b - 192) * 64 + (b2 - 128)) :: utf8DecodeAux fuel bs2
        else Char.ofNat 65533 :: utf8DecodeAux fuel bs
      | [] => [Char.ofNat 65533]
    else if 224 ≤ b ∧ b ≤ 239 then
      match bs with
      | b2 :: b3 :: bs3 =>
        if (128 ≤ b2 ∧ b2 ≤ 191) ∧ (128 ≤ b3 ∧ b3 ≤ 191) then
          Char.ofNat ((b - 224) * 4096 + (b2 - 128) * 64 + (b3 - 128)) :: utf8DecodeAux fuel bs3
        else Char.ofNat 65533 :: utf8DecodeAux fuel bs
      | _ => [Char.ofNat 65533]
    else if 240 ≤ b ∧ b ≤ 244 then
      match bs with
      | b2 :: b3 :: b4 :: bs4 =>
        if (128 ≤ b2 ∧ b2 ≤ 191) ∧ (128 ≤ b3 ∧ b3 ≤ 191) ∧ (128 ≤ b4 ∧ b4 ≤ 191) then
          Char.ofNat ((b - 240) * 262144 + (b2 - 128) * 4096 + (b3 - 128) * 64 + (b4 - 128)) ::
            utf8DecodeAux fuel bs4
        else Char.ofNat 65533 :: utf8DecodeAux fuel bs
      | _ => [Char.ofNat 65533]
    else Char.ofNat 65533 :: utf8DecodeAux fuel bs

/-- UTF-8 decoding with enough fuel for the whole byte list. -/
def utf8Decode (bs : List Nat) : List Char := utf8DecodeAux bs.length bs

/-- Value of a hexadecimal digit. -/
def hexVal (c : Char) : Option Nat :=
  if c.isDigit then some (c.toNat - 48)
  else if 'a' ≤ c ∧ c ≤ 'f' then some (c.toNat - 87)
  else if 'A' ≤ c ∧ c ≤ 'F' then some (c.toNat - 55)
  else none

/-- Percent-unescaping to bytes: `%XX` groups become the named byte, every
other character contributes its UTF-8 bytes. -/
def percentBytes : List Char → List Nat
  | [] => []
  | c :: c1 :: c2 :: rest2 =>
    if c = '%' then
      match hexVal c1, hexVal c2 with
      | some h1, some h2 => (h1 * 16 + h2) :: percentBytes rest2
      | _, _ => utf8Encode '%' ++ percentBytes (c1 :: c2 :: rest2)
    else utf8Encode c ++ percentBytes (c1 :: c2 :: rest2)
  | c :: rest =>
    if c = '%' then utf8Encode '%' ++ percentBytes rest
    else utf8Encode c ++ percentBytes rest

/-- Embedding of `urllib.parse.unquote_plus`: `+` becomes a space, then
percent groups are decoded as UTF-8 bytes. -/
def unquotePlus (s : List Char) : List Char :=
  utf8Decode (percentBytes (s.map fun c => if c = '+' then ' ' else c))

/-- Fuel-driven worker for `splitAll` (`l.length + 1` fuel always
suffices, see `splitAllAux_eq`). -/
def splitAllAux : Nat → Char → List Char → List (List Char)
  | 0, _, l => [l]
  | fuel + 1, c, l =>
    match splitFirst c l with
    | (before, none) => [before]
    | (before, some after) => before :: splitAllAux fuel c after

/-- Splitting a string on every occurrence of `c` (Python `str.split`). -/
def splitAll (c : Char) (l : List Char) : List (List Char) :=
  splitAllAux (l.length + 1) c l

/-- One field of `parse_qsl`: drop empty fields, fields without `=` and
fields with an empty value, and percent-unescape the name and the value. -/
def parseQslStep (nv : List Char) (acc : List (List Char × List Char)) :
    List (List Char × List Char) :=
  if nv = [] then acc
  else
    match splitFirst '=' nv with
    | (_, none) => acc
    | (nm, some v) => if v = [] then acc else (unquotePlus nm, unquotePlus v) :: acc

/-- Embedding of `urllib.parse.parse_qsl` with default arguments: split on
`&`, then handle each field with `parseQslStep`. -/
def parseQsl (qs : List Char) : List (List Char × List Char) :=
  (splitAll '&' qs).foldr parseQslStep []

/-- Appending a value under a key in the insertion-ordered dict that
`parse_qs` builds. -/
def insertQs : List (List Char × List (List Char)) → List Char → List Char →
    List (List Char × List (List Char))
  | [], k, v => [(k, [v])]
  | (k0, vs) :: rest, k, v =>
    if k0 = k then (k0, vs ++ [v]) :: rest else (k0, vs) :: insertQs rest k v

/-- Embedding of `urllib.parse.parse_qs`: the pairs of `parse_qsl` grouped
into an insertion-ordered dict. -/
def parseQs (qs : List Char) : List (List Char × List (List Char)) :=
  (parseQsl qs).foldl (fun d kv => insertQs d kv.1 kv.2) []

/-- Dict lookup (`qs.get(key)`). -/
def qsGet (d : List (List Char × List (List Char))) (k : List Char) :
    Option (List (List Char)) :=
  (d.find? fun e => decide (e.1 = k)).map (·.2)

/-- Dict assignment `qs[key] = value`: replace in place, else append. -/
def setQs : List (List Char × List (List Char)) → List Char → List (List Char) →
    List (List Char × List (List Char))
  | [], k, v => [(k, v)]
  | (k0, vs) :: rest, k, v =>
    if k0 = k then (k0, v) :: rest else (k0, vs) :: setQs rest k v

/-- Always-safe bytes of `urllib.parse.quote` (letters, digits and
`_.-~`). -/
def quoteSafeByte (b : Nat) : Bool :=
  (65 ≤ b && b ≤ 90) || (97 ≤ b && b ≤ 122) || (48 ≤ b && b ≤ 57) ||
    b = 95 || b = 46 || b = 45 || b = 126

/-- Upper-case hexadecimal digit. -/
def hexDigitChar (n : Nat) : Char :=
  if n < 10 then Char.ofNat (48 + n) else Char.ofNat (55 + n)

/-- Embedding of `urllib.parse.quote_plus` with empty `safe`: UTF-8 encode,
keep safe bytes, turn spaces into `+`, percent-escape the rest in upper-case
hex. -/
def quotePlus (s : List Char) : List Char :=
  (s.foldr (fun c acc => utf8Encode c ++ acc) []).foldr
    (fun b acc =>
      if quoteSafeByte b then Char.ofNat b :: acc
      else if b = 32 then '+' :: acc
      else '%' :: hexDigitChar (b / 16) :: hexDigitChar (b % 16) :: acc)
    []

/-- Embedding of `urllib.parse.urlencode` over the single-valued dict the
fallback branch builds. -/
def urlencode (items : List (List Char × List Char)) : List Char :=
  List.intercalate ['&'] (items.map fun kv => quotePlus kv.1 ++ '=' :: quotePlus kv.2)

/-- Python `int()` on a string: optional surrounding whitespace, an
optional sign, then decimal digits (digit-group underscores and non-ASCII
digits are not modelled; no theorem evaluates them). -/
def parseNatDigits (l : List Char) : Option Nat :=
  if l ≠ [] ∧ l.all Char.isDigit then
    some (l.foldl (fun acc c => acc * 10 + (c.toNat - 48)) 0)
  else none

/-- Python `int(str)` including the strip and the sign. -/
def pyInt (s : List Char) : Option Int :=
  let t := pyStrip s
  if t.take 1 = ['-'] then (parseNatDigits (t.drop 1)).map fun n => -(n : Int)
  else if t.take 1 = ['+'] then (parseNatDigits (t.drop 1)).map fun n => (n : Int)
  else (parseNatDigits t).map fun n => (n : Int)

/-- Fuel-driven worker for `natRepr` (`n + 1` fuel always suffices, see
`natReprAux_eq`). -/
def natReprAux : Nat → Nat → List Char → List Char
  | 0, _, acc => acc
  | fuel + 1, n, acc =>
    if n < 10 then Char.ofNat (48 + n) :: acc
    else natReprAux fuel (n / 10) (Char.ofNat (48 + n % 10) :: acc)

/-- Decimal rendering of a natural number (Python `str(int)` digits). -/
def natRepr (n : Nat) : List Char := natReprAux (n + 1) n []

theorem natReprAux_eq (n : Nat) : ∀ (fuel : Nat) (acc : List Char), n < fuel →
    natReprAux fuel n acc = natRepr n ++ acc := by
  induction n using Nat.strong_induction_on with
  | _ n ih =>
    intro fuel acc hf
    match fuel, hf with
    | fuel + 1, _ =>
      by_cases h10 : n < 10
      · simp [natReprAux, natRepr, h10]
      · have hdiv : n / 10 < n := Nat.div_lt_self (by omega) (by omega)
        have hL : natReprAux (fuel + 1) n acc =
            natRepr (n / 10) ++ Char.ofNat (48 + n % 10) :: acc := by
          simp only [natReprAux, if_neg h10]
          exact ih (n / 10) hdiv fuel _ (by omega)
        have hR : natRepr n = natRepr (n / 10) ++ [Char.ofNat (48 + n % 10)] := by
          show natReprAux (n + 1) n [] = _
          simp only [natReprAux, if_neg h10]
          exact ih (n / 10) hdiv n _ (by omega)
        rw [hL, hR]
        simp

/-- Recurrence of `natRepr` below ten. -/
theorem natRepr_lt (n : Nat) (h : n < 10) : natRepr n = [Char.ofNat (48 + n)] := by
  simp [natRepr, natReprAux, h]

/-- Recurrence of `natRepr` from ten up. -/
theorem natRepr_ge (n : Nat) (h : 10 ≤ n) :
    natRepr n = natRepr (n / 10) ++ [Char.ofNat (48 + n % 10)] := by
  show natReprAux (n + 1) n [] = _
  simp only [natReprAux, if_neg (by omega : ¬ n < 10)]
  exact natReprAux_eq (n / 10) n _ (by omega)

/-- Python `str` of an `int` (an f-string `f"tid=\x7btid\x7d"` renders the
same characters). -/
def intRepr (i : Int) : List Char :=
  if i < 0 then '-' :: natRepr (-i).toNat else natRepr i.toNat

/-- Worker of `pyFormat`: the Bool records whether the single positional
argument has already been consumed (a second `\x7b\x7d` field raises
IndexError in Python, hence `none`). -/
def pyFormatAux (arg : List Char) : Bool → List Char → Option (List Char)
  | _, [] => some []
  | used, c :: rest =>
    if c = lbrace then
      match rest with
      | c2 :: rest2 =>
        if c2 = lbrace then (pyFormatAux arg used rest2).map (fun r => lbrace :: r)
        else if c2 = rbrace then
          if used then none
          else (pyFormatAux arg true rest2).map (fun r => arg ++ r)
        else none
      | [] => none
    else if c = rbrace then
      match rest with
      | c2 :: rest2 =>
        if c2 = rbrace then (pyFormatAux arg used rest2).map (fun r => rbrace :: r)
        else none
      | [] => none
    else (pyFormatAux arg used rest).map (fun r => c :: r)

/-- Python `str.format` with one positional argument: `\x7b\x7d` consumes
the argument, doubled braces are literals, and an unmatched brace or a
second field yields `none` (Python raises ValueError resp. IndexError).
Index and named fields such as `\x7b0\x7d` also yield `none`; the code
never builds them and no theorem evaluates them. -/
def pyFormat (arg s : List Char) : Option (List Char) :=
  pyFormatAux arg false s

/-- Embedding of `_build_page_url_template` applied to already-parsed
components: prefer the canonical `tid`-based template, else rewrite the
`page` parameter in place through `urlencode`. -/
def buildTemplateParsed (p : ParsedUrl) : List Char :=
  let qs := parseQs p.query
  let tidVals := (qsGet qs ("tid".data)).getD []
  let fallback :=
    let qs2 := setQs qs ("page".data) [[lbrace, rbrace]]
    let newQuery := urlencode (qs2.filterMap fun kv =>
      match kv.2 with
      | v0 :: _ => some (kv.1, v0)
      | [] => none)
    urlunparse ⟨p.scheme, p.netloc, p.path, p.params, newQuery, p.fragment⟩
  match tidVals with
  | t0 :: _ =>
    match pyInt t0 with
    | some tid =>
      urlunparse ⟨(if p.scheme ≠ [] then p.scheme else "https".data),
        (if p.netloc ≠ [] then p.netloc else "bbs.nga.cn".data),
        (if p.path ≠ [] then p.path else "/read.php".data), [],
        "tid=".data ++ intRepr tid ++ "&page=".data ++ [lbrace, rbrace], []⟩
    | none => fallback
  | [] => fallback

/-- Embedding of `_build_page_url_template` on a URL string. -/
def build_page_url_template (url : List Char) : List Char :=
  buildTemplateParsed (urlparse url)

/-! ## Claim C7: the fallback (`tid`-less) branch of the template builder -/

/-- Claim C7 fails on the code: for a URL without a `tid` parameter the
fallback branch stores the literal placeholder `\x7b\x7d` as the `page`
value, but `urlencode` percent-escapes every unsafe character, so the
template ends in `page=%7B%7D` and `str.format` finds no placeholder.
Instantiating the template with page number 3 succeeds but returns the
template unchanged: the `page` query value of the instantiated URL is the
literal two-character string `\x7b\x7d` — never `3` — while the other
query parameter `fid` is preserved. -/
theorem fallback_template_never_instantiates :
    build_page_url_template ("https://bbs.nga.cn/thread.php?fid=7&page=1".data) =
      ("https://bbs.nga.cn/thread.php?fid=7&page=%7B%7D".data)
    ∧ pyFormat ("3".data)
        (build_page_url_template ("https://bbs.nga.cn/thread.php?fid=7&page=1".data)) =
      some (build_page_url_template ("https://bbs.nga.cn/thread.php?fid=7&page=1".data))
    ∧ qsGet (parseQs (urlparse
          (build_page_url_template ("https://bbs.nga.cn/thread.php?fid=7&page=1".data))).query)
        ("page".data) = some [[lbrace, rbrace]]
    ∧ qsGet (parseQs (urlparse
          (build_page_url_template ("https://bbs.nga.cn/thread.php?fid=7&page=1".data))).query)
        ("fid".data) = some ["7".data] := by
  refine ⟨by decide, by decide, by decide, by decide⟩

/-! ## Claim C6: the `tid` branch of the template builder

The remaining lemmas trace a `tid`-bearing URL through the template
builder, `str.format` instantiation and a re-parse, establishing the
page-value and round-trip properties the claim states. -/

theorem natRepr_mem_digits (n : Nat) : ∀ c ∈ natRepr n, c ∈ ("0123456789".data) := by
  induction n using Nat.strong_induction_on with
  | _ n ih =>
    by_cases h10 : n < 10
    · rw [natRepr_lt n h10]
      intro c hc
      rw [List.mem_singleton.mp hc]
      interval_cases n <;> decide
    · rw [natRepr_ge n (by omega)]
      intro c hc
      rcases List.mem_append.mp hc with hc | hc
      · exact ih (n / 10) (Nat.div_lt_self (by omega) (by omega)) c hc
      · rw [List.mem_singleton.mp hc]
        have hm : n % 10 < 10 := Nat.mod_lt _ (by omega)
        set m := n % 10 with hmeq
        interval_cases m <;> decide

theorem signDigit_rbrace : ∀ c ∈ ("-0123456789".data), c ≠ rbrace := by
  decide

theorem natRepr_rbrace (n : Nat) : ∀ c ∈ natRepr n, c ≠ rbrace :=
  fun c hc => signDigit_rbrace c (List.mem_cons_of_mem _ (natRepr_mem_digits n c hc))

end NGA
